import Mathlib

/-!
Verification development for the LTA tournament-calendar parsing engine
(`parseTournamentsProgrammatically` and `extractPostcode` in `server/parser.ts`).

The parser is a single pass over the input text driven by a handful of
JavaScript regular expressions.  We shallowly embed it over `List Char`:
each regular expression of the source is translated into a list of
alternatives, each alternative a list of `Tok` tokens, and `pmatch` is a
complete backtracking matcher implementing the JavaScript (greedy,
leftmost-alternative-first) matching discipline for this token language.
Machine strings are `List Char`; `String.toList` is used only to write
literals.  `toUpperCase`/`toLowerCase` are embedded for the ASCII range,
which covers every character class the source's regexes can match.
-/

namespace LTA

/-! ## Character predicates (JavaScript `\s`, `\d`, `\w`, classes) -/

/-- JavaScript `\s` (ECMA-262 WhiteSpace ∪ LineTerminator). -/
def isWs (c : Char) : Bool :=
  let n := c.toNat
  n = 0x20 || n = 0x9 || n = 0xa || n = 0xb || n = 0xc || n = 0xd ||
  n = 0xa0 || n = 0x1680 || (0x2000 ≤ n && n ≤ 0x200a) ||
  n = 0x2028 || n = 0x2029 || n = 0x202f || n = 0x205f || n = 0x3000 || n = 0xfeff

/-- JavaScript `\d`. -/
def isDigitC (c : Char) : Bool :=
  0x30 ≤ c.toNat && c.toNat ≤ 0x39

/-- `[A-Z]` (the entry-anchor regex has no `i` flag, so only uppercase). -/
def isUpperAZ (c : Char) : Bool :=
  0x41 ≤ c.toNat && c.toNat ≤ 0x5a

def isLowerAZ (c : Char) : Bool :=
  0x61 ≤ c.toNat && c.toNat ≤ 0x7a

/-- `[A-Za-z]`, as matched by `[A-Z]` under the `i` flag. -/
def isAsciiLetter (c : Char) : Bool :=
  isUpperAZ c || isLowerAZ c

/-- JavaScript `\w` = `[A-Za-z0-9_]`. -/
def isWordC (c : Char) : Bool :=
  isAsciiLetter c || isDigitC c || c.toNat = 0x5f

/-- `[A-Z0-9]` under the `i` flag. -/
def isAlnum (c : Char) : Bool :=
  isAsciiLetter c || isDigitC c

/-- The dash class `[-–—]` appearing in the category-heading regexes. -/
def isDash3 (c : Char) : Bool :=
  c.toNat = 0x2d || c.toNat = 0x2013 || c.toNat = 0x2014

/-- The class `[-\/–—]` of the trailing-date-fragment regex. -/
def isDashSlash (c : Char) : Bool :=
  isDash3 c || c.toNat = 0x2f

/-- ASCII `toUpperCase`, as applied by the source to codes and dates
(every character those strings can contain is ASCII). -/
def jsToUpper (c : Char) : Char :=
  if isLowerAZ c then Char.ofNat (c.toNat - 0x20) else c

def jsToUpperL (l : List Char) : List Char :=
  l.map jsToUpper

/-- Case-insensitive character comparison.  ECMA-262 canonicalizes via
`toUpperCase` for case-insensitive matching without the `u` flag. -/
def ciEq (x c : Char) : Bool :=
  jsToUpper x == jsToUpper c

/-! ## A token language for the source's regular expressions

Each regex of `parser.ts` is a sequence of the constructs below (with a
top-level alternation in a few of them).  `pmatch` is a complete
backtracking matcher: greedy quantifiers, trying longer consumptions
first, exactly as the JavaScript engine resolves these patterns. -/

inductive Tok where
  /-- case-sensitive literal character -/
  | lit : Char → Tok
  /-- case-insensitive literal character (regex with `i` flag) -/
  | litci : Char → Tok
  /-- exactly one character of a class -/
  | cls : (Char → Bool) → Tok
  /-- `?` : zero or one character of a class, greedy -/
  | copt : (Char → Bool) → Tok
  /-- `*` : zero or more characters of a class, greedy -/
  | star : (Char → Bool) → Tok
  /-- `+` : one or more characters of a class, greedy -/
  | plus : (Char → Bool) → Tok
  /-- `{1,2}` : one or two characters of a class, greedy -/
  | one2 : (Char → Bool) → Tok
  /-- `$` : end of input -/
  | eos : Tok

/-- The greedy loop of a class quantifier `p*`: consume as many
`p`-characters as possible, backtracking one at a time into the
continuation `cont` (the matcher for the rest of the pattern). -/
def starRun (p : Char → Bool) (cont : List Char → Option Nat) : List Char → Option Nat
  | [] => cont []
  | x :: xs =>
    if p x then
      match starRun p cont xs with
      | some n => some (n + 1)
      | none => cont (x :: xs)
    else cont (x :: xs)

/-- `pmatch ts l` returns the number of characters of `l` consumed by the
first (in JavaScript preference order) way of matching the token sequence
`ts` against a prefix of `l`, or `none` when no way exists. -/
def pmatch : List Tok → List Char → Option Nat
  | [], _ => some 0
  | Tok.lit c :: ts, l =>
    match l with
    | [] => none
    | x :: xs =>
      if x = c then
        match pmatch ts xs with
        | some n => some (n + 1)
        | none => none
      else none
  | Tok.litci c :: ts, l =>
    match l with
    | [] => none
    | x :: xs =>
      if ciEq x c then
        match pmatch ts xs with
        | some n => some (n + 1)
        | none => none
      else none
  | Tok.cls p :: ts, l =>
    match l with
    | [] => none
    | x :: xs =>
      if p x then
        match pmatch ts xs with
        | some n => some (n + 1)
        | none => none
      else none
  | Tok.copt p :: ts, l =>
    match l with
    | [] => pmatch ts []
    | x :: xs =>
      if p x then
        match pmatch ts xs with
        | some n => some (n + 1)
        | none => pmatch ts (x :: xs)
      else pmatch ts (x :: xs)
  | Tok.star p :: ts, l => starRun p (fun l2 => pmatch ts l2) l
  | Tok.plus p :: ts, l =>
    match l with
    | [] => none
    | x :: xs =>
      if p x then
        match starRun p (fun l2 => pmatch ts l2) xs with
        | some n => some (n + 1)
        | none => none
      else none
  | Tok.one2 p :: ts, l =>
    match l with
    | [] => none
    | [x] =>
      if p x then
        match pmatch ts [] with
        | some n => some (n + 1)
        | none => none
      else none
    | x :: y :: xs =>
      if p x then
        if p y then
          match pmatch ts xs with
          | some n => some (n + 2)
          | none =>
            match pmatch ts (y :: xs) with
            | some n => some (n + 1)
            | none => none
        else
          match pmatch ts (y :: xs) with
          | some n => some (n + 1)
          | none => none
      else none
  | Tok.eos :: ts, l =>
    match l with
    | [] => pmatch ts []
    | _ :: _ => none

/-- A pattern: ordered alternatives (JavaScript tries them left to right). -/
abbrev Pat := List (List Tok)

/-- Match some alternative at the start of `l`, first alternative wins. -/
def patMatchAt : Pat → List Char → Option Nat
  | [], _ => none
  | alt :: rest, l =>
    match pmatch alt l with
    | some n => some n
    | none => patMatchAt rest l

/-- Leftmost match: `some (j, n)` means the pattern matches `n` characters
starting at index `j`, and matches at no earlier index. -/
def patFindRel (alts : Pat) : List Char → Option (Nat × Nat)
  | [] =>
    match patMatchAt alts [] with
    | some n => some (0, n)
    | none => none
  | x :: xs =>
    match patMatchAt alts (x :: xs) with
    | some n => some (0, n)
    | none => (patFindRel alts xs).map (fun p => (p.1 + 1, p.2))

/-- Leftmost match returning the matched text (`match[0]` in JavaScript). -/
def patFindSlice (alts : Pat) (l : List Char) : Option (Nat × List Char) :=
  (patFindRel alts l).map (fun p => (p.1, (l.drop p.1).take p.2))

/-- `regex.test(l)` : does the pattern match anywhere in `l`? -/
def patTestB (alts : Pat) (l : List Char) : Bool :=
  (patFindRel alts l).isSome

/-- All matches of `String.prototype.matchAll` with a `/g` regex:
successive leftmost matches, each search resuming right after the previous
match.  (None of the source's global patterns can match the empty string:
their first token requires a character, so the `some 0` case is dead.) -/
def findAllF : Nat → Pat → List Char → Nat → List (Nat × List Char)
  | 0, _, _, _ => []
  | fuel + 1, alts, l, i =>
    match l with
    | [] => []
    | x :: xs =>
      match patMatchAt alts (x :: xs) with
      | some (n + 1) =>
        (i, (x :: xs).take (n + 1)) :: findAllF fuel alts (xs.drop n) (i + n + 1)
      | _ => findAllF fuel alts xs (i + 1)

def findAll (alts : Pat) (l : List Char) (i : Nat) : List (Nat × List Char) :=
  findAllF l.length alts l i

/-- `hay.indexOf(needle)` (case-sensitive literal search; `none` for -1). -/
def idxOf (needle : List Char) : List Char → Option Nat
  | [] => if needle.isEmpty then some 0 else none
  | x :: xs =>
    if needle.isPrefixOf (x :: xs) then some 0
    else (idxOf needle xs).map (· + 1)

/-- `hay.includes(needle)`. -/
def containsSub (hay needle : List Char) : Bool :=
  (idxOf needle hay).isSome

/-! ## Word-boundary alternation finder

`/\b(Mixed|Male|Female)\b/i` and `/\b(Singles|Doubles)\b/i`: at a match
start `\b` holds iff the previous character is not a word character (the
first letter of each alternative is one), and after the match the next
character, if any, must not be a word character. -/

/-- Case-insensitive "the word `w` is a prefix of `l`". -/
def ciPrefixEq : List Char → List Char → Bool
  | [], _ => true
  | _ :: _, [] => false
  | c :: cs, x :: xs => ciEq x c && ciPrefixEq cs xs

/-- Trailing `\b` after a word of length `w.length` matched at the head of `l`. -/
def endBoundary (w l : List Char) : Bool :=
  match l.drop w.length with
  | [] => true
  | c :: _ => !(isWordC c)

def tryWordAt (w l : List Char) : Option (List Char) :=
  if ciPrefixEq w l && endBoundary w l then some (l.take w.length) else none

def tryWordsAt : List (List Char) → List Char → Option (List Char)
  | [], _ => none
  | w :: ws, l =>
    match tryWordAt w l with
    | some s => some s
    | none => tryWordsAt ws l

/-- Leftmost whole-word case-insensitive match of one of `words`.
`prevW` records whether the previous character is a word character. -/
def wordFindCI (words : List (List Char)) : List Char → Bool → Nat → Option (Nat × List Char)
  | [], _, _ => none
  | x :: xs, prevW, i =>
    if prevW then wordFindCI words xs (isWordC x) (i + 1)
    else
      match tryWordsAt words (x :: xs) with
      | some s => some (i, s)
      | none => wordFindCI words xs (isWordC x) (i + 1)

/-! ## The grade finder

`/(?:Singles|Doubles|Grade)\s*(\d)/i` — the captured group is the single
digit after the keyword and optional whitespace.  `\s*` is followed by
`\d`, which are disjoint classes, so the greedy match is deterministic:
skip the maximal whitespace run and require a digit. -/

def gradeTryWord (w l : List Char) : Option Char :=
  if ciPrefixEq w l then
    match (l.drop w.length).dropWhile isWs with
    | d :: _ => if isDigitC d then some d else none
    | [] => none
  else none

def gradeTryAt (l : List Char) : Option Char :=
  match gradeTryWord (("Singles").toList) l with
  | some d => some d
  | none =>
    match gradeTryWord (("Doubles").toList) l with
    | some d => some d
    | none => gradeTryWord (("Grade").toList) l

def gradeFind : List Char → Option Char
  | [] => none
  | x :: xs =>
    match gradeTryAt (x :: xs) with
    | some d => some d
    | none => gradeFind xs

/-! ## String utilities of the source -/

/-- `.replace(/\s+/g, '')`. -/
def stripWs (l : List Char) : List Char :=
  l.filter (fun c => !(isWs c))

/-- `.replace(/\s+/g, r)` : each maximal whitespace run becomes one `r`. -/
def collapseWsWith (r : Char) : List Char → List Char
  | [] => []
  | x :: xs =>
    if isWs x then
      match xs with
      | y :: _ => if isWs y then collapseWsWith r xs else r :: collapseWsWith r xs
      | [] => [r]
    else x :: collapseWsWith r xs

/-- `.trim()`. -/
def trimWs (l : List Char) : List Char :=
  ((l.dropWhile isWs).reverse.dropWhile isWs).reverse

/-- `[-–—\s]` : separator characters stripped around titles. -/
def isSep (c : Char) : Bool :=
  isDash3 c || isWs c

def dropLeadSep (l : List Char) : List Char :=
  l.dropWhile isSep

def dropTrailSep (l : List Char) : List Char :=
  (l.reverse.dropWhile isSep).reverse

/-- JavaScript `String.prototype.substring` (clamps and swaps its bounds). -/
def jsSubstring (l : List Char) (a b : Nat) : List Char :=
  let a' := min a l.length
  let b' := min b l.length
  if a' ≤ b' then (l.drop a').take (b' - a') else (l.drop b').take (a' - b')

/-- `String.prototype.split` with a single-character separator. -/
def splitOnChar (c : Char) : List Char → List (List Char)
  | [] => [[]]
  | x :: xs =>
    if x = c then [] :: splitOnChar c xs
    else
      match splitOnChar c xs with
      | a :: as => (x :: a) :: as
      | [] => [[x]]

/-- `text.replace(/[–—]/g, '-')` — the first line of the parser. -/
def normalizeDashes (text : List Char) : List Char :=
  text.map (fun c => if c.toNat = 0x2013 || c.toNat = 0x2014 then '-' else c)

/-! ## The patterns of `parser.ts` -/

def litsCI (s : String) : List Tok :=
  s.toList.map Tok.litci

/-- `/([A-Z]\s*[A-Z]\s*[A-Z]\s*[-]\s*\d\s*\d\s*[-]\s*\d\s*\d\s*\d\s*\d)/g`. -/
def entryStartPat : Pat :=
  [[Tok.cls isUpperAZ, Tok.star isWs, Tok.cls isUpperAZ, Tok.star isWs, Tok.cls isUpperAZ,
    Tok.star isWs, Tok.lit '-', Tok.star isWs, Tok.cls isDigitC, Tok.star isWs, Tok.cls isDigitC,
    Tok.star isWs, Tok.lit '-', Tok.star isWs, Tok.cls isDigitC, Tok.star isWs, Tok.cls isDigitC,
    Tok.star isWs, Tok.cls isDigitC, Tok.star isWs, Tok.cls isDigitC]]

/-- `S?` under the `i` flag. -/
def ciS (c : Char) : Bool :=
  ciEq c 'S'

/-- `/N\s*&\s*U\s*EVENTS/i` (8U, 9U, 10U headings). -/
def ageuMixedPat (ds : String) : List Tok :=
  ds.toList.map Tok.litci ++
    [Tok.star isWs, Tok.litci '&', Tok.star isWs, Tok.litci 'U', Tok.star isWs] ++
    litsCI ("EVENTS")

/-- `/N\s*&\s*U\s*EVENTS?\s*[-–—]\s*WORD/i` (gendered junior headings). -/
def ageuGenderPat (ds gw : String) : List Tok :=
  ds.toList.map Tok.litci ++
    [Tok.star isWs, Tok.litci '&', Tok.star isWs, Tok.litci 'U', Tok.star isWs] ++
    litsCI ("EVENT") ++
    [Tok.copt ciS, Tok.star isWs, Tok.cls isDash3, Tok.star isWs] ++
    litsCI gw

/-- `/OPEN\s*EVENTS?\s*[-–—]\s*WORD/i`. -/
def openGenderPat (gw : String) : List Tok :=
  litsCI ("OPEN") ++ [Tok.star isWs] ++ litsCI ("EVENT") ++
    [Tok.copt ciS, Tok.star isWs, Tok.cls isDash3, Tok.star isWs] ++
    litsCI gw

/-- The `categoryPatterns` array, in the source's priority order. -/
def categoryPatterns : List (List Char × Pat) :=
  [(("8U").toList, [ageuMixedPat ("8")]),
   (("9U").toList, [ageuMixedPat ("9")]),
   (("10U").toList, [ageuMixedPat ("10")]),
   (("11U Boys").toList, [ageuGenderPat ("11") ("BOYS")]),
   (("11U Girls").toList, [ageuGenderPat ("11") ("GIRLS")]),
   (("12U Boys").toList, [ageuGenderPat ("12") ("BOYS")]),
   (("12U Girls").toList, [ageuGenderPat ("12") ("GIRLS")]),
   (("14U Boys").toList, [ageuGenderPat ("14") ("BOYS")]),
   (("14U Girls").toList, [ageuGenderPat ("14") ("GIRLS")]),
   (("16U Boys").toList, [ageuGenderPat ("16") ("BOYS")]),
   (("16U Girls").toList, [ageuGenderPat ("16") ("GIRLS")]),
   (("18U Boys").toList, [ageuGenderPat ("18") ("BOYS")]),
   (("18U Girls").toList, [ageuGenderPat ("18") ("GIRLS")]),
   (("Open Men").toList, [openGenderPat ("MEN")]),
   (("Open Women").toList, [openGenderPat ("WOMEN")])]

def genderWords : List (List Char) :=
  [("Mixed").toList, ("Male").toList, ("Female").toList]

def typeWords : List (List Char) :=
  [("Singles").toList, ("Doubles").toList]

/-- `/(?:Sat|Sun|Mon|Tue|Wed|Thu|Fri)\s*\d{1,2}\s*\w{3}/i`. -/
def datePat : Pat :=
  [("Sat"), ("Sun"), ("Mon"), ("Tue"), ("Wed"), ("Thu"), ("Fri")].map
    (fun w => litsCI w ++
      [Tok.star isWs, Tok.one2 isDigitC, Tok.star isWs,
       Tok.cls isWordC, Tok.cls isWordC, Tok.cls isWordC])

/-- `/LL:\s*(\d{2}\/\d{2}\/\d{4}\s*\d{2}:\d{2})/i` for a two-letter label. -/
def deadlinePat (l1 l2 : Char) : Pat :=
  [[Tok.litci l1, Tok.litci l2, Tok.lit ':', Tok.star isWs,
    Tok.cls isDigitC, Tok.cls isDigitC, Tok.lit '/',
    Tok.cls isDigitC, Tok.cls isDigitC, Tok.lit '/',
    Tok.cls isDigitC, Tok.cls isDigitC, Tok.cls isDigitC, Tok.cls isDigitC,
    Tok.star isWs, Tok.cls isDigitC, Tok.cls isDigitC, Tok.lit ':',
    Tok.cls isDigitC, Tok.cls isDigitC]]

def isEmailLocal (c : Char) : Bool :=
  isAlnum c || c.toNat = 0x2e || c.toNat = 0x5f || c.toNat = 0x25 ||
  c.toNat = 0x2b || c.toNat = 0x2d

def isEmailDomain (c : Char) : Bool :=
  isAlnum c || c.toNat = 0x2e || c.toNat = 0x2d

/-- `/([a-zA-Z0-9._%+-]+\s*@\s*[a-zA-Z0-9.-]+\s*\.\s*[a-zA-Z]{2,})/`. -/
def emailPat : Pat :=
  [[Tok.plus isEmailLocal, Tok.star isWs, Tok.lit '@', Tok.star isWs,
    Tok.plus isEmailDomain, Tok.star isWs, Tok.lit '.', Tok.star isWs,
    Tok.cls isAsciiLetter, Tok.plus isAsciiLetter]]

/-- `/\s*[-–—]\s*\d{1,2}\s*[-\/–—]\s*\d{1,2}\s*[-\/–—]\s*\d{2,4}\s*$/gi`
(the trailing embedded-date fragment stripped from titles; `\d{2,4}` is
encoded as two required digits and two greedy optional ones, which
explores the same consumption lengths in the same order). -/
def titleDatePat : Pat :=
  [[Tok.star isWs, Tok.cls isDash3, Tok.star isWs, Tok.one2 isDigitC,
    Tok.star isWs, Tok.cls isDashSlash, Tok.star isWs, Tok.one2 isDigitC,
    Tok.star isWs, Tok.cls isDashSlash, Tok.star isWs,
    Tok.cls isDigitC, Tok.cls isDigitC, Tok.copt isDigitC, Tok.copt isDigitC,
    Tok.star isWs, Tok.eos]]

/-- `/[A-Z]{1,2}\s*[0-9]\s*[A-Z0-9]?\s*[0-9]\s*[A-Z]\s*[A-Z]/i`. -/
def postcodePat : Pat :=
  [[Tok.one2 isAsciiLetter, Tok.star isWs, Tok.cls isDigitC, Tok.star isWs,
    Tok.copt isAlnum, Tok.star isWs, Tok.cls isDigitC, Tok.star isWs,
    Tok.cls isAsciiLetter, Tok.star isWs, Tok.cls isAsciiLetter]]

/-! ## The field extractors -/

/-- `extractPostcode` of `parser.ts`. -/
def extractPostcode (text : List Char) : Option (List Char) :=
  (patFindSlice postcodePat text).map (fun m => jsToUpperL (collapseWsWith ' ' m.2))

def genderOf (chunk : List Char) : List Char :=
  match wordFindCI genderWords chunk false 0 with
  | some m => m.2
  | none => ("Mixed").toList

def eventTypeOf (chunk : List Char) : List Char :=
  match wordFindCI typeWords chunk false 0 with
  | some m => m.2
  | none => ("Singles").toList

def dateFindOpt (chunk : List Char) : Option (Nat × List Char) :=
  patFindSlice datePat chunk

/-- `dateStr`: matched text with whitespace runs collapsed, else `"TBD"`. -/
def dateStrOf (chunk : List Char) : List Char :=
  match dateFindOpt chunk with
  | some m => collapseWsWith ' ' m.2
  | none => ("TBD").toList

/-- `cd` / `wd`: capture group 1, i.e. the match minus the label and the
whitespace after it; `"N/A"` when absent. -/
def deadlineOf (l1 l2 : Char) (chunk : List Char) : List Char :=
  match patFindSlice (deadlinePat l1 l2) chunk with
  | some m => (m.2.drop 3).dropWhile isWs
  | none => ("N/A").toList

def emailOf (chunk : List Char) : List Char :=
  match patFindSlice emailPat chunk with
  | some m => stripWs m.2
  | none => []

/-- Title extraction: text between the raw code and the first occurrence
of the gender or event-type string, stripped of separators and of a
trailing embedded date fragment. -/
def titleOf (chunk raw cat : List Char) : List Char :=
  let gender := genderOf chunk
  let etype := eventTypeOf chunk
  let gIdx := (idxOf gender chunk).getD chunk.length
  let tIdx := (idxOf etype chunk).getD chunk.length
  let stop := min gIdx tIdx
  let t0 := trimWs (jsSubstring chunk raw.length stop)
  let t1 := dropTrailSep (dropLeadSep t0)
  let t2 :=
    match patFindRel titleDatePat t1 with
    | some p => t1.take p.1
    | none => t1
  let t3 := trimWs (dropTrailSep t2)
  if t3.isEmpty then cat ++ (" Event").toList else t3

/-- Venue extraction: the text strictly between
`chunk.indexOf(dateMatch[0]) + dateMatch[0].length` and
`chunk.indexOf("CD:")` when the latter is larger, trimmed; otherwise the
placeholder; in both cases whitespace-collapsed and truncated to 80. -/
def venueOf (chunk : List Char) : List Char :=
  let base :=
    match dateFindOpt chunk with
    | some m =>
      let dEnd := (idxOf m.2 chunk).getD 0 + m.2.length
      match idxOf (("CD:").toList) chunk with
      | some k =>
        if dEnd < k then trimWs ((chunk.drop dEnd).take (k - dEnd))
        else ("Sussex Club").toList
      | none => ("Sussex Club").toList
    | none => ("Sussex Club").toList
  (collapseWsWith ' ' base).take 80

/-- The `monthMap` table of the source. -/
def monthMapL : List (List Char × List Char) :=
  [(("JAN").toList, ("January").toList), (("FEB").toList, ("February").toList),
   (("MAR").toList, ("March").toList), (("APR").toList, ("April").toList),
   (("MAY").toList, ("May").toList), (("JUN").toList, ("June").toList),
   (("JUL").toList, ("July").toList), (("AUG").toList, ("August").toList),
   (("SEP").toList, ("September").toList), (("OCT").toList, ("October").toList),
   (("NOV").toList, ("November").toList), (("DEC").toList, ("December").toList)]

def lookupPairs (k : List Char) : List (List Char × List Char) → Option (List Char)
  | [] => none
  | (a, b) :: rest => if a = k then some b else lookupPairs k rest

/-- The month label: `monthMap[last token of dateStr.toUpperCase()] || 'Upcoming'`
plus the year inferred from the code. -/
def monthLabel (dateStr code : List Char) : List Char :=
  let parts := splitOnChar ' ' (jsToUpperL dateStr)
  let abbr := parts.getLastD []
  let fm := (lookupPairs abbr monthMapL).getD (("Upcoming").toList)
  let yr := if containsSub code (("-25-").toList) then ("2025").toList else ("2026").toList
  fm ++ (' ' :: yr)

/-- `` `${code}-${gender}-${eventType}-${category}` ``.replace(/\s+/g,'_')`. -/
def uniqueId (code g t cat : List Char) : List Char :=
  collapseWsWith '_' (code ++ ('-' :: (g ++ ('-' :: (t ++ ('-' :: cat))))))

/-! ## The record type and the parsing loop -/

structure Tournament where
  id : List Char
  title : List Char
  gender : List Char
  eventType : List Char
  grade : List Char
  venue : List Char
  postcode : List Char
  ltaCode : List Char
  date : List Char
  month : List Char
  category : List Char
  organiserEmail : List Char
  deadlineCD : List Char
  deadlineWD : List Char
deriving DecidableEq, Repr

/-- Assemble one record from an entry's chunk, raw matched code, and the
current category. -/
def mkRecord (chunk raw cat : List Char) : Tournament :=
  let normalizedCode := stripWs raw
  let gender := genderOf chunk
  let eventType := eventTypeOf chunk
  let venue := venueOf chunk
  { id := uniqueId normalizedCode gender eventType cat
    title := titleOf chunk raw cat
    gender := gender
    eventType := eventType
    grade := ("Grade ").toList ++ [(gradeFind chunk).getD '4']
    venue := venue
    postcode := (extractPostcode venue).getD (("BN1").toList)
    ltaCode := normalizedCode
    date := dateStrOf chunk
    month := monthLabel (dateStrOf chunk) normalizedCode
    category := cat
    organiserEmail := emailOf chunk
    deadlineCD := deadlineOf 'C' 'D' chunk
    deadlineWD := deadlineOf 'W' 'D' chunk }

/-- `normalizedCode.toUpperCase().startsWith("SUS-")`. -/
def susFilter (raw : List Char) : Bool :=
  (("SUS-").toList).isPrefixOf (jsToUpperL (stripWs raw))

/-- `normalizedText.substring(Math.max(0, idx - 1000), idx)`. -/
def windowBefore (ntext : List Char) (idx : Nat) : List Char :=
  (ntext.drop (idx - 1000)).take (idx - (idx - 1000))

/-- The category-tracking fold: test every heading pattern in priority
order over the window, overwriting the current category on each match. -/
def catScan (w cat : List Char) : List Char :=
  categoryPatterns.foldl (fun acc p => if patTestB p.2 w then p.1 else acc) cat

/-- The main loop over the anchor matches, threading the category. -/
def parseLoop (ntext : List Char) : List (Nat × List Char) → List Char → List Tournament
  | [], _ => []
  | (idx, raw) :: rest, cat =>
    let endIdx := match rest with | [] => ntext.length | m :: _ => m.1
    let chunk := (ntext.drop idx).take (endIdx - idx)
    if susFilter raw then
      let newCat := catScan (windowBefore ntext idx) cat
      mkRecord chunk raw newCat :: parseLoop ntext rest newCat
    else parseLoop ntext rest cat

/-- `parseTournamentsProgrammatically` of `server/parser.ts`. -/
def parseTournamentsProgrammatically (text : List Char) : List Tournament :=
  let ntext := normalizeDashes text
  parseLoop ntext (findAll entryStartPat ntext 0) (("Junior").toList)

/-- The anchors that pass the organization filter (those that produce records). -/
def retainedMatches (text : List Char) : List (Nat × List Char) :=
  (findAll entryStartPat (normalizeDashes text) 0).filter (fun m => susFilter m.2)

/-- The parsing loop instrumented with each emitted record's anchor
offset (the source's `startIndex`, in scope when the record is pushed):
identical to `parseLoop` except that every record is paired with the
offset of the anchor it was built from.  Used to state the output-order
property. -/
def parseLoopAnn (ntext : List Char) : List (Nat × List Char) → List Char →
    List (Nat × Tournament)
  | [], _ => []
  | (idx, raw) :: rest, cat =>
    let endIdx := match rest with | [] => ntext.length | m :: _ => m.1
    let chunk := (ntext.drop idx).take (endIdx - idx)
    if susFilter raw then
      let newCat := catScan (windowBefore ntext idx) cat
      (idx, mkRecord chunk raw newCat) :: parseLoopAnn ntext rest newCat
    else parseLoopAnn ntext rest cat

/-- The parse with each record paired with its anchor's source offset. -/
def annotatedParse (text : List Char) : List (Nat × Tournament) :=
  let ntext := normalizeDashes text
  parseLoopAnn ntext (findAll entryStartPat ntext 0) (("Junior").toList)

/-! ## Declarative matching semantics

`TM ts l n` : the token sequence `ts` can match the length-`n` prefix of
`l` (in some way, not necessarily the greedy-preferred one).  `pmatch` is
sound and complete for it, which lets us transport matches between
positions holding the same characters. -/

inductive TM : List Tok → List Char → Nat → Prop where
  | nil : ∀ (l : List Char), TM [] l 0
  | lit : ∀ c ts xs n, TM ts xs n → TM (Tok.lit c :: ts) (c :: xs) (n + 1)
  | litci : ∀ c ts x xs n, ciEq x c = true → TM ts xs n → TM (Tok.litci c :: ts) (x :: xs) (n + 1)
  | cls : ∀ p ts x xs n, p x = true → TM ts xs n → TM (Tok.cls p :: ts) (x :: xs) (n + 1)
  | coptSome : ∀ p ts x xs n, p x = true → TM ts xs n → TM (Tok.copt p :: ts) (x :: xs) (n + 1)
  | coptNone : ∀ p ts l n, TM ts l n → TM (Tok.copt p :: ts) l n
  | starCons : ∀ p ts x xs n, p x = true → TM (Tok.star p :: ts) xs n →
      TM (Tok.star p :: ts) (x :: xs) (n + 1)
  | starNil : ∀ p ts l n, TM ts l n → TM (Tok.star p :: ts) l n
  | plusCons : ∀ p ts x xs n, p x = true → TM (Tok.star p :: ts) xs n →
      TM (Tok.plus p :: ts) (x :: xs) (n + 1)
  | one2One : ∀ p ts x xs n, p x = true → TM ts xs n → TM (Tok.one2 p :: ts) (x :: xs) (n + 1)
  | one2Two : ∀ p ts x y xs n, p x = true → p y = true → TM ts xs n →
      TM (Tok.one2 p :: ts) (x :: y :: xs) (n + 2)
  | eosNil : ∀ ts n, TM ts [] n → TM (Tok.eos :: ts) [] n

def isEos : Tok → Bool
  | Tok.eos => true
  | _ => false

/-- Token sequences without the end-of-input anchor match content-locally. -/
def noEos : List Tok → Bool
  | [] => true
  | t :: ts => !(isEos t) && noEos ts

/-- A default record, used only to state concrete witness instances. -/
def defaultTournament : Tournament :=
  ⟨[], [], [], [], [], [], [], [], [], [], [], [], [], []⟩

/-! ## Definitions following the specification's words

These restate, in the specification's phrasing, the behaviours claimed
for the category tracker, the venue extractor, and the month label; the
theorems below compare them with the code's embedding. -/

/-- The label of the last heading pattern in priority order that matches
anywhere in the window (the spec's "last-in-priority-order matching
pattern wins"). -/
def lastMatchingCategory (w : List Char) : Option (List Char) :=
  ((categoryPatterns.filter (fun p => patTestB p.2 w)).getLast?).map Prod.fst

/-- One step of the spec's category rule: last matching pattern wins,
otherwise the category carries over unchanged. -/
def specCategoryStep (w prev : List Char) : List Char :=
  match lastMatchingCategory w with
  | some c => c
  | none => prev

/-- The spec's category sequence over the retained anchors' positions. -/
def specCatSeq (ntext : List Char) : List Nat → List Char → List (List Char)
  | [], _ => []
  | i :: is, prev =>
    let c := specCategoryStep (windowBefore ntext i) prev
    c :: specCatSeq ntext is c

/-- The categories of a document's retained entries per the spec's rule,
starting from `"Junior"`. -/
def specCategories (text : List Char) : List (List Char) :=
  specCatSeq (normalizeDashes text) ((retainedMatches text).map Prod.fst) (("Junior").toList)

/-- The venue rule as the spec words it: the chunk text strictly between
the end of the date match (at the match's own position) and the `CD:`
label, trimmed, whitespace-collapsed and truncated to 80 characters, with
the placeholder in all other cases. -/
def specVenueOf (chunk : List Char) : List Char :=
  match dateFindOpt chunk with
  | some m =>
    match idxOf (("CD:").toList) chunk with
    | some k =>
      if m.1 + m.2.length < k then
        (collapseWsWith ' ' (trimWs ((chunk.drop (m.1 + m.2.length)).take (k - (m.1 + m.2.length))))).take 80
      else ("Sussex Club").toList
    | none => ("Sussex Club").toList
  | none => ("Sussex Club").toList

/-- The month rule as the spec words it: upper-case the last
space-delimited token of the date string, map it through the month table
(`"Upcoming"` when absent), and append the year derived from the code. -/
def specMonthOf (date code : List Char) : List Char :=
  let tok := (splitOnChar ' ' date).getLastD []
  let fm := (lookupPairs (jsToUpperL tok) monthMapL).getD (("Upcoming").toList)
  let yr := if containsSub code (("-25-").toList) then ("2025").toList else ("2026").toList
  fm ++ (' ' :: yr)


/-! ## Theorems: character-level facts -/

theorem toNat_ofNat_valid (k : Nat) (h : k < 0xd800) : (Char.ofNat k).toNat = k := by
  have hv : Nat.isValidChar k := Or.inl h
  simp only [Char.ofNat, hv, dif_pos, Char.ofNatAux, Char.toNat, UInt32.toNat,
    BitVec.toNat_ofNatLt]

theorem jsToUpper_space_iff (x : Char) : jsToUpper x = ' ' ↔ x = ' ' := by
  constructor
  · intro h
    by_cases hl : isLowerAZ x = true
    · exfalso
      simp only [jsToUpper, hl, if_true] at h
      have h2 : (Char.ofNat (x.toNat - 0x20)).toNat = (' ').toNat := by rw [h]
      simp only [isLowerAZ, Bool.and_eq_true, decide_eq_true_eq] at hl
      rw [toNat_ofNat_valid (x.toNat - 0x20) (by omega)] at h2
      have hsp : (' ').toNat = 0x20 := by decide
      omega
    · simpa [jsToUpper, hl] using h
  · intro h
    subst h
    decide

/-! ## Theorems: soundness and completeness of the matcher -/

/-! ## Theorems: soundness and completeness of the matcher -/

theorem starRun_sound : ∀ (p : Char → Bool) (cont : List Char → Option Nat) (l : List Char) (n : Nat),
    starRun p cont l = some n →
    ∃ k m, n = k + m ∧ k ≤ l.length ∧ cont (l.drop k) = some m ∧
      ∀ c ∈ l.take k, p c = true := by
  intro p cont l
  induction l with
  | nil =>
    intro n h
    exact ⟨0, n, by omega, Nat.le_refl 0, h, by simp⟩
  | cons x xs ih =>
    intro n h
    by_cases hp : p x = true
    · cases hs : starRun p cont xs with
      | some n2 =>
        simp only [starRun, hp, if_true, hs, Option.some.injEq] at h
        obtain ⟨k2, m, rfl, hk, hcont, hall⟩ := ih n2 hs
        refine ⟨k2 + 1, m, by omega, by simp only [List.length_cons]; omega, hcont, ?_⟩
        intro c hc
        simp only [List.take_succ_cons, List.mem_cons] at hc
        rcases hc with rfl | hc2
        · exact hp
        · exact hall c hc2
      | none =>
        simp only [starRun, hp, if_true, hs] at h
        exact ⟨0, n, by omega, Nat.zero_le _, h, by simp⟩
    · simp only [starRun, hp, Bool.false_eq_true, if_false] at h
      exact ⟨0, n, by omega, Nat.zero_le _, h, by simp⟩

theorem TM_star_intro : ∀ (p : Char → Bool) ts k (l : List Char) m, k ≤ l.length →
    (∀ c ∈ l.take k, p c = true) → TM ts (l.drop k) m → TM (Tok.star p :: ts) l (k + m) := by
  intro p ts k
  induction k with
  | zero =>
    intro l m _ _ htm
    simpa using TM.starNil p ts l m htm
  | succ k2 ih =>
    intro l m hk hall htm
    cases l with
    | nil => simp at hk
    | cons x xs =>
      have hx : p x = true := by
        apply hall
        simp [List.take_succ_cons]
      have htail : TM (Tok.star p :: ts) xs (k2 + m) := by
        apply ih xs m
        · simp only [List.length_cons] at hk
          omega
        · intro c hc
          exact hall c (by simp [List.take_succ_cons, hc])
        · simpa [List.drop_succ_cons] using htm
      have := TM.starCons p ts x xs (k2 + m) hx htail
      have harith : k2 + m + 1 = k2 + 1 + m := by omega
      exact harith ▸ this

theorem pmatch_sound : ∀ ts l n, pmatch ts l = some n → TM ts l n := by
  intro ts
  induction ts with
  | nil =>
    intro l n h
    simp only [pmatch, Option.some.injEq] at h
    exact h ▸ TM.nil l
  | cons t ts ih =>
    intro l n h
    cases t with
    | lit c =>
      cases l with
      | nil => simp [pmatch] at h
      | cons x xs =>
        by_cases hx : x = c
        · subst hx
          cases hm : pmatch ts xs with
          | none => simp [pmatch, hm] at h
          | some m =>
            simp [pmatch, hm] at h
            exact h ▸ TM.lit x ts xs m (ih xs m hm)
        · simp [pmatch, hx] at h
    | litci c =>
      cases l with
      | nil => simp [pmatch] at h
      | cons x xs =>
        by_cases hx : ciEq x c = true
        · cases hm : pmatch ts xs with
          | none => simp [pmatch, hx, hm] at h
          | some m =>
            simp only [pmatch, if_pos hx, hm, Option.some.injEq] at h
            exact h ▸ TM.litci c ts x xs m hx (ih xs m hm)
        · simp [pmatch, hx] at h
    | cls p =>
      cases l with
      | nil => simp [pmatch] at h
      | cons x xs =>
        by_cases hx : p x = true
        · cases hm : pmatch ts xs with
          | none => simp [pmatch, hx, hm] at h
          | some m =>
            simp only [pmatch, if_pos hx, hm, Option.some.injEq] at h
            exact h ▸ TM.cls p ts x xs m hx (ih xs m hm)
        · simp [pmatch, hx] at h
    | copt p =>
      cases l with
      | nil =>
        simp only [pmatch] at h
        exact TM.coptNone p ts [] n (ih [] n h)
      | cons x xs =>
        by_cases hx : p x = true
        · cases hm : pmatch ts xs with
          | none =>
            simp only [pmatch, if_pos hx, hm] at h
            exact TM.coptNone p ts (x :: xs) n (ih (x :: xs) n h)
          | some m =>
            simp only [pmatch, if_pos hx, hm, Option.some.injEq] at h
            exact h ▸ TM.coptSome p ts x xs m hx (ih xs m hm)
        · simp only [pmatch, hx, Bool.false_eq_true, if_false] at h
          exact TM.coptNone p ts (x :: xs) n (ih (x :: xs) n h)
    | star p =>
      simp only [pmatch] at h
      obtain ⟨k, m, rfl, hk, hcont, hall⟩ := starRun_sound p _ l n h
      exact TM_star_intro p ts k l m hk hall (ih (l.drop k) m hcont)
    | plus p =>
      cases l with
      | nil => simp [pmatch] at h
      | cons x xs =>
        by_cases hx : p x = true
        · cases hs : starRun p (fun l2 => pmatch ts l2) xs with
          | none => simp [pmatch, hx, hs] at h
          | some n2 =>
            simp only [pmatch, if_pos hx, hs, Option.some.injEq] at h
            obtain ⟨k, m, rfl, hk, hcont, hall⟩ := starRun_sound p _ xs n2 hs
            have hstar : TM (Tok.star p :: ts) xs (k + m) :=
              TM_star_intro p ts k xs m hk hall (ih (xs.drop k) m hcont)
            exact h ▸ TM.plusCons p ts x xs (k + m) hx hstar
        · simp [pmatch, hx] at h
    | one2 p =>
      cases l with
      | nil => simp [pmatch] at h
      | cons x xs =>
        cases xs with
        | nil =>
          by_cases hx : p x = true
          · cases hm : pmatch ts [] with
            | none => simp [pmatch, hx, hm] at h
            | some m =>
              simp only [pmatch, if_pos hx, hm, Option.some.injEq] at h
              exact h ▸ TM.one2One p ts x [] m hx (ih [] m hm)
          · simp [pmatch, hx] at h
        | cons y ys =>
          by_cases hx : p x = true
          · by_cases hy : p y = true
            · cases hm : pmatch ts ys with
              | some m =>
                simp only [pmatch, if_pos hx, if_pos hy, hm, Option.some.injEq] at h
                exact h ▸ TM.one2Two p ts x y ys m hx hy (ih ys m hm)
              | none =>
                cases hm2 : pmatch ts (y :: ys) with
                | none => simp [pmatch, hx, hy, hm, hm2] at h
                | some m2 =>
                  simp only [pmatch, if_pos hx, if_pos hy, hm, hm2, Option.some.injEq] at h
                  exact h ▸ TM.one2One p ts x (y :: ys) m2 hx (ih (y :: ys) m2 hm2)
            · cases hm2 : pmatch ts (y :: ys) with
              | none => simp [pmatch, hx, hy, hm2] at h
              | some m2 =>
                simp only [pmatch, if_pos hx, if_neg hy, hm2, Option.some.injEq] at h
                exact h ▸ TM.one2One p ts x (y :: ys) m2 hx (ih (y :: ys) m2 hm2)
          · simp [pmatch, hx] at h
    | eos =>
      cases l with
      | nil =>
        simp only [pmatch] at h
        exact TM.eosNil ts n (ih [] n h)
      | cons x xs => simp [pmatch] at h

theorem starRun_complete : ∀ (p : Char → Bool) (cont : List Char → Option Nat) (l : List Char)
    (k : Nat), k ≤ l.length → (∀ c ∈ l.take k, p c = true) → (cont (l.drop k)).isSome →
    (starRun p cont l).isSome := by
  intro p cont l
  induction l with
  | nil =>
    intro k _ _ hsome
    simpa [starRun, List.drop_nil] using hsome
  | cons x xs ih =>
    intro k hk hall hsome
    cases k with
    | zero =>
      simp only [List.drop] at hsome
      by_cases hp : p x = true
      · cases hs : starRun p cont xs with
        | some n => simp [starRun, hp, hs]
        | none => simpa [starRun, hp, hs] using hsome
      · simpa [starRun, hp] using hsome
    | succ k2 =>
      have hp : p x = true := by
        apply hall
        simp [List.take_succ_cons]
      have htail : (starRun p cont xs).isSome := by
        apply ih k2
        · simp only [List.length_cons] at hk
          omega
        · intro c hc
          exact hall c (by simp [List.take_succ_cons, hc])
        · simpa [List.drop_succ_cons] using hsome
      obtain ⟨m, hm⟩ := Option.isSome_iff_exists.mp htail
      simp [starRun, hp, hm]

theorem TM_star_elim : ∀ {p : Char → Bool} {ts l n}, TM (Tok.star p :: ts) l n →
    ∃ k m, n = k + m ∧ k ≤ l.length ∧ (∀ c ∈ l.take k, p c = true) ∧ TM ts (l.drop k) m := by
  intro p ts l n h
  generalize hts : Tok.star p :: ts = ts2 at h
  induction h with
  | starCons p2 ts2b x xs n2 hp2 htm ih =>
    obtain ⟨rfl, rfl⟩ : p2 = p ∧ ts2b = ts := by
      have h1 := hts.symm
      rw [List.cons.injEq] at h1
      exact ⟨(Tok.star.injEq _ _).mp h1.1, h1.2⟩
    obtain ⟨k, m, rfl, hk, hall, htm2⟩ := ih rfl
    refine ⟨k + 1, m, by omega, by simp only [List.length_cons]; omega, ?_, by simpa using htm2⟩
    intro c hc
    simp only [List.take_succ_cons, List.mem_cons] at hc
    rcases hc with rfl | hc2
    · exact hp2
    · exact hall c hc2
  | starNil p2 ts2b l2 n2 htm =>
    obtain ⟨rfl, rfl⟩ : p2 = p ∧ ts2b = ts := by
      have h1 := hts.symm
      rw [List.cons.injEq] at h1
      exact ⟨(Tok.star.injEq _ _).mp h1.1, h1.2⟩
    exact ⟨0, n2, by omega, Nat.zero_le _, by simp, htm⟩
  | nil l2 => cases hts
  | lit c2 ts2b xs n2 htm ih => cases hts
  | litci c2 ts2b x xs n2 hci htm ih => cases hts
  | cls p2 ts2b x xs n2 hp2 htm ih => cases hts
  | coptSome p2 ts2b x xs n2 hp2 htm ih => cases hts
  | coptNone p2 ts2b l2 n2 htm ih => cases hts
  | plusCons p2 ts2b x xs n2 hp2 htm ih => cases hts
  | one2One p2 ts2b x xs n2 hp2 htm ih => cases hts
  | one2Two p2 ts2b x y xs n2 hp2 hq2 htm ih => cases hts
  | eosNil ts2b n2 htm ih => cases hts

theorem TM_complete : ∀ {ts l n}, TM ts l n → (pmatch ts l).isSome := by
  intro ts l n h
  induction h with
  | nil l => simp [pmatch]
  | lit c ts xs n htm ih =>
    obtain ⟨m, hm⟩ := Option.isSome_iff_exists.mp ih
    simp [pmatch, hm]
  | litci c ts x xs n hci htm ih =>
    obtain ⟨m, hm⟩ := Option.isSome_iff_exists.mp ih
    simp [pmatch, hci, hm]
  | cls p ts x xs n hp htm ih =>
    obtain ⟨m, hm⟩ := Option.isSome_iff_exists.mp ih
    simp [pmatch, hp, hm]
  | coptSome p ts x xs n hp htm ih =>
    obtain ⟨m, hm⟩ := Option.isSome_iff_exists.mp ih
    simp [pmatch, hp, hm]
  | coptNone p ts l n htm ih =>
    cases l with
    | nil => simpa [pmatch] using ih
    | cons x xs =>
      by_cases hp : p x = true
      · cases hm : pmatch ts xs with
        | some m => simp [pmatch, hp, hm]
        | none => simpa [pmatch, hp, hm] using ih
      · simpa [pmatch, hp] using ih
  | starCons p ts x xs n hp htm ih =>
    simp only [pmatch] at ih ⊢
    cases hs : starRun p (fun l2 => pmatch ts l2) xs with
    | some m => simp [starRun, hp, hs]
    | none => rw [hs] at ih; cases ih
  | starNil p ts l n htm ih =>
    simp only [pmatch]
    apply starRun_complete p _ l 0 (Nat.zero_le _) (by simp)
    simpa using ih
  | plusCons p ts x xs n hp htm ih =>
    have ih2 : (starRun p (fun l2 => pmatch ts l2) xs).isSome := by
      simpa [pmatch] using ih
    obtain ⟨m, hm⟩ := Option.isSome_iff_exists.mp ih2
    simp [pmatch, hp, hm]
  | one2One p ts x xs n hp htm ih =>
    obtain ⟨m, hm⟩ := Option.isSome_iff_exists.mp ih
    cases xs with
    | nil => simp [pmatch, hp, hm]
    | cons y ys =>
      by_cases hq : p y = true
      · cases hm2 : pmatch ts ys with
        | some k => simp [pmatch, hp, hq, hm2]
        | none => simp [pmatch, hp, hq, hm2, hm]
      · simp [pmatch, hp, hq, hm]
  | one2Two p ts x y xs n hp hq htm ih =>
    obtain ⟨m, hm⟩ := Option.isSome_iff_exists.mp ih
    simp [pmatch, hp, hq, hm]
  | eosNil ts n htm ih =>
    simpa [pmatch] using ih
theorem TM_length : ∀ {ts l n}, TM ts l n → n ≤ l.length := by
  intro ts l n h
  induction h <;> simp_all [List.length_cons]

theorem TM_transfer : ∀ {ts l n}, TM ts l n → noEos ts = true →
    ∀ l2, l.take n = l2.take n → n ≤ l2.length → TM ts l2 n := by
  intro ts l n h
  induction h with
  | nil l => intro _ l2 _ _; exact TM.nil l2
  | lit c ts xs n htm ih =>
    intro hne l2 htake hlen
    have hne2 : noEos ts = true := by
      simp [noEos, isEos] at hne
      exact hne
    cases l2 with
    | nil => simp at hlen
    | cons z zs =>
      simp only [List.take_succ_cons, List.cons.injEq] at htake
      obtain ⟨rfl, htake2⟩ := htake
      have hlen2 : n ≤ zs.length := by
        simp only [List.length_cons] at hlen
        omega
      exact TM.lit c ts zs n (ih hne2 zs htake2 hlen2)
  | litci c ts x xs n hci htm ih =>
    intro hne l2 htake hlen
    have hne2 : noEos ts = true := by
      simp [noEos, isEos] at hne
      exact hne
    cases l2 with
    | nil => simp at hlen
    | cons z zs =>
      simp only [List.take_succ_cons, List.cons.injEq] at htake
      obtain ⟨rfl, htake2⟩ := htake
      have hlen2 : n ≤ zs.length := by
        simp only [List.length_cons] at hlen
        omega
      exact TM.litci c ts x zs n hci (ih hne2 zs htake2 hlen2)
  | cls p ts x xs n hp htm ih =>
    intro hne l2 htake hlen
    have hne2 : noEos ts = true := by
      simp [noEos, isEos] at hne
      exact hne
    cases l2 with
    | nil => simp at hlen
    | cons z zs =>
      simp only [List.take_succ_cons, List.cons.injEq] at htake
      obtain ⟨rfl, htake2⟩ := htake
      have hlen2 : n ≤ zs.length := by
        simp only [List.length_cons] at hlen
        omega
      exact TM.cls p ts x zs n hp (ih hne2 zs htake2 hlen2)
  | coptSome p ts x xs n hp htm ih =>
    intro hne l2 htake hlen
    have hne2 : noEos ts = true := by
      simp [noEos, isEos] at hne
      exact hne
    cases l2 with
    | nil => simp at hlen
    | cons z zs =>
      simp only [List.take_succ_cons, List.cons.injEq] at htake
      obtain ⟨rfl, htake2⟩ := htake
      have hlen2 : n ≤ zs.length := by
        simp only [List.length_cons] at hlen
        omega
      exact TM.coptSome p ts x zs n hp (ih hne2 zs htake2 hlen2)
  | coptNone p ts l n htm ih =>
    intro hne l2 htake hlen
    have hne2 : noEos ts = true := by
      simp [noEos, isEos] at hne
      exact hne
    exact TM.coptNone p ts l2 n (ih hne2 l2 htake hlen)
  | starCons p ts x xs n hp htm ih =>
    intro hne l2 htake hlen
    cases l2 with
    | nil => simp at hlen
    | cons z zs =>
      simp only [List.take_succ_cons, List.cons.injEq] at htake
      obtain ⟨rfl, htake2⟩ := htake
      have hlen2 : n ≤ zs.length := by
        simp only [List.length_cons] at hlen
        omega
      exact TM.starCons p ts x zs n hp (ih hne zs htake2 hlen2)
  | starNil p ts l n htm ih =>
    intro hne l2 htake hlen
    have hne2 : noEos ts = true := by
      simp [noEos, isEos] at hne
      exact hne
    exact TM.starNil p ts l2 n (ih hne2 l2 htake hlen)
  | plusCons p ts x xs n hp htm ih =>
    intro hne l2 htake hlen
    have hne2 : noEos (Tok.star p :: ts) = true := by
      simp [noEos, isEos] at hne ⊢
      exact hne
    cases l2 with
    | nil => simp at hlen
    | cons z zs =>
      simp only [List.take_succ_cons, List.cons.injEq] at htake
      obtain ⟨rfl, htake2⟩ := htake
      have hlen2 : n ≤ zs.length := by
        simp only [List.length_cons] at hlen
        omega
      exact TM.plusCons p ts x zs n hp (ih hne2 zs htake2 hlen2)
  | one2One p ts x xs n hp htm ih =>
    intro hne l2 htake hlen
    have hne2 : noEos ts = true := by
      simp [noEos, isEos] at hne
      exact hne
    cases l2 with
    | nil => simp at hlen
    | cons z zs =>
      simp only [List.take_succ_cons, List.cons.injEq] at htake
      obtain ⟨rfl, htake2⟩ := htake
      have hlen2 : n ≤ zs.length := by
        simp only [List.length_cons] at hlen
        omega
      exact TM.one2One p ts x zs n hp (ih hne2 zs htake2 hlen2)
  | one2Two p ts x y xs n hp hq htm ih =>
    intro hne l2 htake hlen
    have hne2 : noEos ts = true := by
      simp [noEos, isEos] at hne
      exact hne
    cases l2 with
    | nil => simp at hlen
    | cons z zs =>
      cases zs with
      | nil => simp only [List.length_cons, List.length_nil] at hlen; omega
      | cons z2 zs2 =>
        simp only [List.take_succ_cons, List.cons.injEq] at htake
        obtain ⟨rfl, rfl, htake2⟩ := htake
        have hlen2 : n ≤ zs2.length := by
          simp only [List.length_cons] at hlen
          omega
        exact TM.one2Two p ts x y zs2 n hp hq (ih hne2 zs2 htake2 hlen2)
  | eosNil ts n htm ih =>
    intro hne
    simp [noEos, isEos] at hne

/-! ## Theorems: search primitives -/

theorem patMatchAt_sound : ∀ alts l n, patMatchAt alts l = some n →
    ∃ alt, alt ∈ alts ∧ pmatch alt l = some n := by
  intro alts
  induction alts with
  | nil => intro l n h; simp [patMatchAt] at h
  | cons a rest ih =>
    intro l n h
    cases hm : pmatch a l with
    | some m =>
      simp only [patMatchAt, hm, Option.some.injEq] at h
      exact ⟨a, List.mem_cons_self a rest, by rw [hm, h]⟩
    | none =>
      simp only [patMatchAt, hm] at h
      obtain ⟨alt, hmem, hp⟩ := ih l n h
      exact ⟨alt, List.mem_cons_of_mem a hmem, hp⟩

theorem patMatchAt_complete : ∀ alts l alt, alt ∈ alts → (pmatch alt l).isSome →
    (patMatchAt alts l).isSome := by
  intro alts
  induction alts with
  | nil => intro l alt h; simp at h
  | cons a rest ih =>
    intro l alt hmem hsome
    cases hm : pmatch a l with
    | some m => simp [patMatchAt, hm]
    | none =>
      simp only [patMatchAt, hm]
      rcases List.mem_cons.mp hmem with rfl | hmem2
      · rw [hm] at hsome
        simp at hsome
      · exact ih l alt hmem2 hsome

theorem patFindRel_found : ∀ alts l j n, patFindRel alts l = some (j, n) →
    patMatchAt alts (l.drop j) = some n := by
  intro alts l
  induction l with
  | nil =>
    intro j n h
    cases hm : patMatchAt alts [] with
    | some m =>
      simp only [patFindRel, hm, Option.some.injEq, Prod.mk.injEq] at h
      obtain ⟨rfl, rfl⟩ := h
      simpa using hm
    | none => simp [patFindRel, hm] at h
  | cons x xs ih =>
    intro j n h
    cases hm : patMatchAt alts (x :: xs) with
    | some m =>
      simp only [patFindRel, hm, Option.some.injEq, Prod.mk.injEq] at h
      obtain ⟨rfl, rfl⟩ := h
      simpa using hm
    | none =>
      simp only [patFindRel, hm, Option.map_eq_some'] at h
      obtain ⟨⟨j2, n2⟩, hrel, heq⟩ := h
      simp only [Prod.mk.injEq] at heq
      obtain ⟨rfl, rfl⟩ := heq
      simpa [List.drop_succ_cons] using ih j2 n2 hrel

theorem patFindRel_min : ∀ alts l j n, patFindRel alts l = some (j, n) →
    ∀ k, k < j → patMatchAt alts (l.drop k) = none := by
  intro alts l
  induction l with
  | nil =>
    intro j n h k hk
    cases hm : patMatchAt alts [] with
    | some m =>
      simp only [patFindRel, hm, Option.some.injEq, Prod.mk.injEq] at h
      obtain ⟨rfl, rfl⟩ := h
      omega
    | none => simp [patFindRel, hm] at h
  | cons x xs ih =>
    intro j n h k hk
    cases hm : patMatchAt alts (x :: xs) with
    | some m =>
      simp only [patFindRel, hm, Option.some.injEq, Prod.mk.injEq] at h
      obtain ⟨rfl, rfl⟩ := h
      omega
    | none =>
      simp only [patFindRel, hm, Option.map_eq_some'] at h
      obtain ⟨⟨j2, n2⟩, hrel, heq⟩ := h
      simp only [Prod.mk.injEq] at heq
      obtain ⟨rfl, rfl⟩ := heq
      cases k with
      | zero => simpa using hm
      | succ k2 =>
        simpa [List.drop_succ_cons] using ih j2 n2 hrel k2 (by omega)

theorem isPrefixOf_take : ∀ (n : Nat) (l : List Char), (l.take n).isPrefixOf l = true := by
  intro n l
  induction l generalizing n with
  | nil => cases n <;> simp [List.isPrefixOf]
  | cons x xs ih =>
    cases n with
    | zero => simp [List.isPrefixOf]
    | succ n2 => simp [List.isPrefixOf, ih n2]

theorem isPrefixOf_spec : ∀ (s l : List Char), s.isPrefixOf l = true →
    s = l.take s.length := by
  intro s
  induction s with
  | nil => intro l h; simp
  | cons c cs ih =>
    intro l h
    cases l with
    | nil => simp [List.isPrefixOf] at h
    | cons x xs =>
      simp only [List.isPrefixOf, Bool.and_eq_true, beq_iff_eq] at h
      obtain ⟨rfl, h2⟩ := h
      simp only [List.length_cons, List.take_succ_cons, List.cons.injEq, true_and]
      exact ih xs h2

theorem isPrefixOf_length_le : ∀ (s l : List Char), s.isPrefixOf l = true →
    s.length ≤ l.length := by
  intro s
  induction s with
  | nil => intro l h; simp
  | cons c cs ih =>
    intro l h
    cases l with
    | nil => simp [List.isPrefixOf] at h
    | cons x xs =>
      simp only [List.isPrefixOf, Bool.and_eq_true] at h
      simp only [List.length_cons]
      exact Nat.succ_le_succ (ih xs h.2)

theorem idxOf_first : ∀ (needle hay : List Char) (i : Nat),
    needle.isPrefixOf (hay.drop i) = true →
    (∀ k, k < i → needle.isPrefixOf (hay.drop k) = false) →
    idxOf needle hay = some i := by
  intro needle hay
  induction hay with
  | nil =>
    intro i hpre hmin
    simp only [List.drop_nil] at hpre
    cases i with
    | zero =>
      cases needle with
      | nil => simp [idxOf]
      | cons c cs => simp [List.isPrefixOf] at hpre
    | succ i2 =>
      have h0 := hmin 0 (Nat.succ_pos i2)
      simp only [List.drop_nil] at h0
      rw [hpre] at h0
      cases h0
  | cons x xs ih =>
    intro i hpre hmin
    cases i with
    | zero =>
      simp only [List.drop] at hpre
      simp [idxOf, hpre]
    | succ i2 =>
      have h0 : needle.isPrefixOf (x :: xs) = false := by
        have := hmin 0 (Nat.succ_pos i2)
        simpa using this
      have hrec : idxOf needle xs = some i2 := by
        apply ih
        · simpa [List.drop_succ_cons] using hpre
        · intro k hk
          have := hmin (k + 1) (by omega)
          simpa [List.drop_succ_cons] using this
      simp [idxOf, h0, hrec]

/-! ## Theorems: the date match is the first occurrence of its own text

The regex engine returns the leftmost match; an earlier literal
occurrence of the matched text would itself admit a match there (by
soundness, content-transfer and completeness), so `indexOf(match[0])`
recovers exactly the match position. -/

theorem datePat_noEos : ∀ alt ∈ datePat, noEos alt = true := by
  have h : datePat.all noEos = true := by decide
  exact fun alt halt => List.all_eq_true.mp h alt halt

theorem dateFind_idxOf : ∀ chunk i m, dateFindOpt chunk = some (i, m) →
    idxOf m chunk = some i := by
  intro chunk i m h
  simp only [dateFindOpt, patFindSlice, Option.map_eq_some'] at h
  obtain ⟨⟨j, n⟩, hrel, heq⟩ := h
  simp only [Prod.mk.injEq] at heq
  obtain ⟨rfl, rfl⟩ := heq
  have hmatch : patMatchAt datePat (chunk.drop j) = some n := patFindRel_found _ _ _ _ hrel
  have hmin : ∀ k, k < j → patMatchAt datePat (chunk.drop k) = none := patFindRel_min _ _ _ _ hrel
  obtain ⟨alt, halt, hpm⟩ := patMatchAt_sound _ _ _ hmatch
  have htm : TM alt (chunk.drop j) n := pmatch_sound _ _ _ hpm
  have hlen : n ≤ (chunk.drop j).length := TM_length htm
  have hmlen : ((chunk.drop j).take n).length = n := by
    simp only [List.length_take]
    omega
  apply idxOf_first
  · exact isPrefixOf_take n (chunk.drop j)
  · intro k hk
    cases hb : ((chunk.drop j).take n).isPrefixOf (chunk.drop k) with
    | false => rfl
    | true =>
      exfalso
      have hs := isPrefixOf_spec _ _ hb
      rw [hmlen] at hs
      have hlen2 : n ≤ (chunk.drop k).length := by
        have := isPrefixOf_length_le _ _ hb
        rw [hmlen] at this
        exact this
      have htm2 : TM alt (chunk.drop k) n :=
        TM_transfer htm (datePat_noEos alt halt) (chunk.drop k) hs hlen2
      have hsome : (patMatchAt datePat (chunk.drop k)).isSome :=
        patMatchAt_complete datePat (chunk.drop k) alt halt (TM_complete htm2)
      rw [hmin k hk] at hsome
      simp at hsome

/-! ## Theorems: record structure -/

theorem parse_eq : ∀ text, parseTournamentsProgrammatically text =
    parseLoop (normalizeDashes text) (findAll entryStartPat (normalizeDashes text) 0)
      (("Junior").toList) :=
  fun _ => rfl

theorem mkRecord_category : ∀ chunk raw cat, (mkRecord chunk raw cat).category = cat := by
  intro chunk raw cat
  rfl

theorem mkRecord_ltaCode : ∀ chunk raw cat, (mkRecord chunk raw cat).ltaCode = stripWs raw := by
  intro chunk raw cat
  rfl

theorem mkRecord_gender : ∀ chunk raw cat, (mkRecord chunk raw cat).gender = genderOf chunk := by
  intro chunk raw cat
  rfl

theorem mkRecord_eventType : ∀ chunk raw cat,
    (mkRecord chunk raw cat).eventType = eventTypeOf chunk := by
  intro chunk raw cat
  rfl

theorem mkRecord_id : ∀ chunk raw cat, (mkRecord chunk raw cat).id =
    uniqueId (stripWs raw) (genderOf chunk) (eventTypeOf chunk) cat := by
  intro chunk raw cat
  rfl

theorem mkRecord_date : ∀ chunk raw cat, (mkRecord chunk raw cat).date = dateStrOf chunk := by
  intro chunk raw cat
  rfl

theorem mkRecord_month : ∀ chunk raw cat, (mkRecord chunk raw cat).month =
    monthLabel (dateStrOf chunk) (stripWs raw) := by
  intro chunk raw cat
  rfl

theorem mkRecord_grade : ∀ chunk raw cat, (mkRecord chunk raw cat).grade =
    ("Grade ").toList ++ [(gradeFind chunk).getD '4'] := by
  intro chunk raw cat
  rfl

theorem catScan_eq_specStep : ∀ w cat, catScan w cat = specCategoryStep w cat := by
  have key : ∀ (ps : List (List Char × Pat)) (w prev : List Char),
      ps.foldl (fun acc p => if patTestB p.2 w then p.1 else acc) prev =
        match ((ps.filter (fun p => patTestB p.2 w)).getLast?).map Prod.fst with
        | some c => c
        | none => prev := by
    intro ps w
    induction ps using List.reverseRecOn with
    | nil => intro prev; simp
    | append_singleton ps p ih =>
      intro prev
      rw [List.foldl_append, List.filter_append]
      by_cases hp : patTestB p.2 w = true
      · simp only [List.foldl_cons, List.foldl_nil, List.filter_cons, List.filter_nil, hp,
          if_true, List.getLast?_concat, Option.map_some']
      · simp only [List.foldl_cons, List.foldl_nil, List.filter_cons, List.filter_nil, hp,
          if_false, Bool.false_eq_true, List.append_nil]
        exact ih prev
  intro w cat
  exact key categoryPatterns w cat

theorem parseLoop_shape : ∀ ntext ms cat r, r ∈ parseLoop ntext ms cat →
    ∃ chunk raw c, susFilter raw = true ∧ r = mkRecord chunk raw c := by
  intro ntext ms
  induction ms with
  | nil =>
    intro cat r h
    simp [parseLoop] at h
  | cons m rest ih =>
    intro cat r h
    obtain ⟨idx, raw⟩ := m
    by_cases hf : susFilter raw = true
    · simp only [parseLoop, hf, if_true] at h
      rcases List.mem_cons.mp h with h1 | h2
      · exact ⟨_, raw, _, hf, h1⟩
      · exact ih _ r h2
    · simp only [parseLoop, hf, Bool.false_eq_true, if_false] at h
      exact ih _ r h

theorem parseLoop_length : ∀ ntext ms cat,
    (parseLoop ntext ms cat).length = (List.filter (fun m => susFilter m.2) ms).length := by
  intro ntext ms
  induction ms with
  | nil => intro cat; simp [parseLoop]
  | cons m rest ih =>
    intro cat
    obtain ⟨idx, raw⟩ := m
    by_cases hf : susFilter raw = true
    · simp only [parseLoop, hf, if_true, List.length_cons, List.filter_cons, ih]
    · simp only [parseLoop, hf, Bool.false_eq_true, if_false, List.filter_cons, ih]

theorem parseLoop_categories : ∀ ntext ms cat,
    (parseLoop ntext ms cat).map (fun r => r.category) =
      specCatSeq ntext ((List.filter (fun m => susFilter m.2) ms).map Prod.fst) cat := by
  intro ntext ms
  induction ms with
  | nil => intro cat; simp [parseLoop, specCatSeq]
  | cons m rest ih =>
    intro cat
    obtain ⟨idx, raw⟩ := m
    by_cases hf : susFilter raw = true
    · simp only [parseLoop, hf, if_true, List.map_cons, List.filter_cons, mkRecord_category,
        specCatSeq, catScan_eq_specStep, ih]
    · simp only [parseLoop, hf, Bool.false_eq_true, if_false, List.filter_cons, ih]

theorem annotatedParse_eq : ∀ text, annotatedParse text =
    parseLoopAnn (normalizeDashes text) (findAll entryStartPat (normalizeDashes text) 0)
      (("Junior").toList) :=
  fun _ => rfl

theorem parseLoopAnn_snd : ∀ ntext ms cat,
    (parseLoopAnn ntext ms cat).map Prod.snd = parseLoop ntext ms cat := by
  intro ntext ms
  induction ms with
  | nil => intro cat; rfl
  | cons m rest ih =>
    intro cat
    obtain ⟨idx, raw⟩ := m
    by_cases hf : susFilter raw = true
    · simp only [parseLoopAnn, parseLoop, hf, if_true, List.map_cons, ih]
    · simp only [parseLoopAnn, parseLoop, hf, Bool.false_eq_true, if_false, ih]

theorem parseLoopAnn_fst : ∀ ntext ms cat,
    (parseLoopAnn ntext ms cat).map Prod.fst =
      (List.filter (fun m => susFilter m.2) ms).map Prod.fst := by
  intro ntext ms
  induction ms with
  | nil => intro cat; rfl
  | cons m rest ih =>
    intro cat
    obtain ⟨idx, raw⟩ := m
    by_cases hf : susFilter raw = true
    · simp only [parseLoopAnn, hf, if_true, List.map_cons, List.filter_cons, ih]
    · simp only [parseLoopAnn, hf, Bool.false_eq_true, if_false, List.filter_cons, ih]

theorem findAllF_ge : ∀ fuel alts l i, ∀ m ∈ findAllF fuel alts l i, i ≤ m.1 := by
  intro fuel
  induction fuel with
  | zero => intro alts l i m hm; simp [findAllF] at hm
  | succ fuel ih =>
    intro alts l i m hmem
    cases l with
    | nil => simp [findAllF] at hmem
    | cons x xs =>
      cases hm : patMatchAt alts (x :: xs) with
      | none =>
        simp only [findAllF, hm] at hmem
        have := ih alts xs (i + 1) m hmem
        omega
      | some n =>
        cases n with
        | zero =>
          simp only [findAllF, hm] at hmem
          have := ih alts xs (i + 1) m hmem
          omega
        | succ n2 =>
          simp only [findAllF, hm] at hmem
          rcases List.mem_cons.mp hmem with rfl | h2
          · exact Nat.le_refl i
          · have := ih alts (xs.drop n2) (i + n2 + 1) m h2
            omega

theorem findAllF_pairwise : ∀ fuel alts l i,
    List.Pairwise (fun a b => a.1 < b.1) (findAllF fuel alts l i) := by
  intro fuel
  induction fuel with
  | zero => intro alts l i; simp [findAllF]
  | succ fuel ih =>
    intro alts l i
    cases l with
    | nil => simp [findAllF]
    | cons x xs =>
      cases hm : patMatchAt alts (x :: xs) with
      | none =>
        simp only [findAllF, hm]
        exact ih alts xs (i + 1)
      | some n =>
        cases n with
        | zero =>
          simp only [findAllF, hm]
          exact ih alts xs (i + 1)
        | succ n2 =>
          simp only [findAllF, hm]
          refine List.Pairwise.cons ?_ (ih alts (xs.drop n2) (i + n2 + 1))
          intro m hmem
          have := findAllF_ge fuel alts (xs.drop n2) (i + n2 + 1) m hmem
          omega

theorem findAll_pairwise : ∀ alts l i,
    List.Pairwise (fun a b => a.1 < b.1) (findAll alts l i) := by
  intro alts l i
  exact findAllF_pairwise l.length alts l i

/-! ## Theorems: month label, gender and grade helpers -/

theorem splitOnChar_upper : ∀ l,
    splitOnChar ' ' (jsToUpperL l) = (splitOnChar ' ' l).map jsToUpperL := by
  intro l
  induction l with
  | nil => simp [splitOnChar, jsToUpperL]
  | cons x xs ih =>
    show splitOnChar ' ' (jsToUpper x :: jsToUpperL xs) = _
    by_cases hx : x = ' '
    · subst hx
      rw [show jsToUpper ' ' = ' ' from by decide]
      have ih2 : splitOnChar ' ' (List.map jsToUpper xs)
          = List.map jsToUpperL (splitOnChar ' ' xs) := ih
      simp [splitOnChar, ih2, jsToUpperL]
    · have hx2 : jsToUpper x ≠ ' ' := fun hcon => hx ((jsToUpper_space_iff x).mp hcon)
      simp only [splitOnChar, if_neg hx2, if_neg hx, ih]
      cases hs : splitOnChar ' ' xs with
      | nil => simp [jsToUpperL]
      | cons a as => simp [jsToUpperL]

theorem getLastD_map : ∀ (f : List Char → List Char) (ls : List (List Char)) (d : List Char),
    (ls.map f).getLastD (f d) = f (ls.getLastD d) := by
  intro f ls
  induction ls with
  | nil => intro d; simp
  | cons a as ih =>
    intro d
    simp only [List.map_cons, List.getLastD_cons, ih]

theorem monthLabel_eq_specMonthOf : ∀ d c, monthLabel d c = specMonthOf d c := by
  intro d c
  simp only [monthLabel, specMonthOf, splitOnChar_upper]
  have h := getLastD_map jsToUpperL (splitOnChar ' ' d) []
  simp only [show jsToUpperL [] = [] from rfl] at h
  rw [h]

theorem ciPrefixEq_upper : ∀ w l, ciPrefixEq w l = true →
    jsToUpperL (l.take w.length) = jsToUpperL w := by
  intro w
  induction w with
  | nil => intro l h; simp [jsToUpperL]
  | cons c cs ih =>
    intro l h
    cases l with
    | nil => simp [ciPrefixEq] at h
    | cons x xs =>
      simp only [ciPrefixEq, Bool.and_eq_true] at h
      obtain ⟨h1, h2⟩ := h
      have hx : jsToUpper x = jsToUpper c := eq_of_beq h1
      simp only [List.length_cons, List.take_succ_cons, jsToUpperL, List.map_cons, hx,
        List.cons.injEq, true_and]
      exact ih xs h2

theorem tryWordAt_sound : ∀ w l s, tryWordAt w l = some s →
    ciPrefixEq w l = true ∧ s = l.take w.length := by
  intro w l s h
  simp only [tryWordAt] at h
  by_cases hc : (ciPrefixEq w l && endBoundary w l) = true
  · rw [if_pos hc] at h
    simp only [Bool.and_eq_true] at hc
    exact ⟨hc.1, (Option.some.injEq _ _).mp h.symm⟩
  · rw [if_neg hc] at h
    cases h

theorem tryWordsAt_sound : ∀ ws l s, tryWordsAt ws l = some s →
    ∃ w ∈ ws, ciPrefixEq w l = true ∧ s = l.take w.length := by
  intro ws
  induction ws with
  | nil => intro l s h; simp [tryWordsAt] at h
  | cons w rest ih =>
    intro l s h
    cases ht : tryWordAt w l with
    | some s2 =>
      simp only [tryWordsAt, ht, Option.some.injEq] at h
      obtain ⟨h1, h2⟩ := tryWordAt_sound w l s2 ht
      exact ⟨w, List.mem_cons_self w rest, h1, h ▸ h2⟩
    | none =>
      simp only [tryWordsAt, ht] at h
      obtain ⟨w2, hmem, hr⟩ := ih l s h
      exact ⟨w2, List.mem_cons_of_mem w hmem, hr⟩

theorem wordFindCI_sound : ∀ words l b i j s, wordFindCI words l b i = some (j, s) →
    ∃ w ∈ words, jsToUpperL s = jsToUpperL w := by
  intro words l
  induction l with
  | nil => intro b i j s h; simp [wordFindCI] at h
  | cons x xs ih =>
    intro b i j s h
    by_cases hb : b = true
    · subst hb
      simp only [wordFindCI, if_true] at h
      exact ih (isWordC x) (i + 1) j s h
    · have hb2 : b = false := by
        cases b
        · rfl
        · exact absurd rfl hb
      subst hb2
      simp only [wordFindCI, Bool.false_eq_true, if_false] at h
      cases ht : tryWordsAt words (x :: xs) with
      | some s2 =>
        rw [ht] at h
        have hinj := (Option.some.injEq _ _).mp h
        rw [Prod.mk.injEq] at hinj
        obtain ⟨rfl, rfl⟩ := hinj
        obtain ⟨w, hmem, hci, hs⟩ := tryWordsAt_sound words (x :: xs) s2 ht
        exact ⟨w, hmem, hs ▸ ciPrefixEq_upper w (x :: xs) hci⟩
      | none =>
        rw [ht] at h
        exact ih (isWordC x) (i + 1) j s h

theorem genderOf_upper : ∀ chunk, jsToUpperL (genderOf chunk) ∈
    [("MIXED").toList, ("MALE").toList, ("FEMALE").toList] := by
  intro chunk
  unfold genderOf
  cases hw : wordFindCI genderWords chunk false 0 with
  | none => decide
  | some m =>
    obtain ⟨j, s⟩ := m
    obtain ⟨w, hmem, hup⟩ := wordFindCI_sound genderWords chunk false 0 j s hw
    simp only [genderWords, List.mem_cons, List.not_mem_nil, or_false] at hmem
    rcases hmem with rfl | rfl | rfl
    · simp only [hup]
      decide
    · simp only [hup]
      decide
    · simp only [hup]
      decide

theorem gradeTryWord_digit : ∀ w l d, gradeTryWord w l = some d → isDigitC d = true := by
  intro w l d h
  simp only [gradeTryWord] at h
  by_cases hc : ciPrefixEq w l = true
  · rw [if_pos hc] at h
    cases hdw : (l.drop w.length).dropWhile isWs with
    | nil => simp only [hdw] at h; cases h
    | cons d2 rest =>
      simp only [hdw] at h
      by_cases hd2 : isDigitC d2 = true
      · rw [if_pos hd2] at h
        have := (Option.some.injEq _ _).mp h
        exact this ▸ hd2
      · rw [if_neg hd2] at h
        cases h
  · rw [if_neg hc] at h
    cases h

theorem gradeTryAt_digit : ∀ l d, gradeTryAt l = some d → isDigitC d = true := by
  intro l d h
  simp only [gradeTryAt] at h
  cases h1 : gradeTryWord (("Singles").toList) l with
  | some d2 =>
    rw [h1] at h
    have := (Option.some.injEq _ _).mp h
    exact this ▸ gradeTryWord_digit _ l d2 h1
  | none =>
    rw [h1] at h
    cases h2 : gradeTryWord (("Doubles").toList) l with
    | some d2 =>
      rw [h2] at h
      have := (Option.some.injEq _ _).mp h
      exact this ▸ gradeTryWord_digit _ l d2 h2
    | none =>
      rw [h2] at h
      exact gradeTryWord_digit _ l d h

theorem gradeFind_digit : ∀ l d, gradeFind l = some d → isDigitC d = true := by
  intro l
  induction l with
  | nil => intro d h; simp [gradeFind] at h
  | cons x xs ih =>
    intro d h
    cases hg : gradeTryAt (x :: xs) with
    | some d2 =>
      simp only [gradeFind, hg, Option.some.injEq] at h
      exact h ▸ gradeTryAt_digit (x :: xs) d2 hg
    | none =>
      simp only [gradeFind, hg] at h
      exact ih d h

set_option maxRecDepth 100000

/-! ## Claim theorems -/

/-- C1: every record produced by the parser has a normalized code
(whitespace stripped, upper-cased) beginning with `"SUS-"`, and records
arise exactly from the anchors passing the filter, so a non-matching
anchor produces no record. -/
theorem C1_sussex_filter :
    (∀ text r, r ∈ parseTournamentsProgrammatically text →
      (("SUS-").toList).isPrefixOf (jsToUpperL r.ltaCode) = true) ∧
    (∀ text, (parseTournamentsProgrammatically text).length = (retainedMatches text).length) := by
  constructor
  · intro text r hr
    rw [parse_eq] at hr
    obtain ⟨chunk, raw, c, hf, rfl⟩ := parseLoop_shape _ _ _ r hr
    rw [mkRecord_ltaCode]
    exact hf
  · intro text
    rw [parse_eq, parseLoop_length]
    rfl

/-- C1 witness: the record parsed from `"SUS-25-0455"` has the prefix. -/
theorem C1_witness :
    (("SUS-").toList).isPrefixOf (jsToUpperL
      ((parseTournamentsProgrammatically (("SUS-25-0455").toList)).headD
        defaultTournament).ltaCode) = true :=
  C1_sussex_filter.1 (("SUS-25-0455").toList)
    ((parseTournamentsProgrammatically (("SUS-25-0455").toList)).headD defaultTournament)
    (by decide)

/-- C2: the parser's category sequence equals the specification's rule:
over the 1000-character window before each retained anchor, the last
heading pattern in priority order that matches wins, the previous entry's
category carries over when none matches, and the initial category is
`"Junior"`. -/
theorem C2_category_tracking : ∀ text,
    (parseTournamentsProgrammatically text).map (fun r => r.category) = specCategories text := by
  intro text
  rw [parse_eq, parseLoop_categories]
  rfl

/-- C3: the parser is deterministic (a pure function of the input text),
and each record's id is a function of exactly the normalized code, gender,
event type and category: records from any two parses agreeing on those
four fields have equal ids. -/
theorem C3_determinism :
    (∀ text, parseTournamentsProgrammatically text = parseTournamentsProgrammatically text) ∧
    (∀ t1 t2 r1 r2, r1 ∈ parseTournamentsProgrammatically t1 →
      r2 ∈ parseTournamentsProgrammatically t2 →
      r1.ltaCode = r2.ltaCode → r1.gender = r2.gender → r1.eventType = r2.eventType →
      r1.category = r2.category → r1.id = r2.id) := by
  refine ⟨fun text => rfl, ?_⟩
  intro t1 t2 r1 r2 h1 h2 hc hg he hk
  rw [parse_eq] at h1 h2
  obtain ⟨chunk1, raw1, c1, hf1, rfl⟩ := parseLoop_shape _ _ _ r1 h1
  obtain ⟨chunk2, raw2, c2, hf2, rfl⟩ := parseLoop_shape _ _ _ r2 h2
  simp only [mkRecord_ltaCode, mkRecord_gender, mkRecord_eventType, mkRecord_category]
    at hc hg he hk
  simp only [mkRecord_id, hc, hg, he, hk]

/-- C3 witness: the same entry surrounded by different noise yields the
same id. -/
theorem C3_witness :
    ((parseTournamentsProgrammatically (("SUS-25-0455 Male").toList)).headD
      defaultTournament).id =
    ((parseTournamentsProgrammatically (("xx SUS-25-0455 Male yy").toList)).headD
      defaultTournament).id :=
  C3_determinism.2 (("SUS-25-0455 Male").toList) (("xx SUS-25-0455 Male yy").toList)
    ((parseTournamentsProgrammatically (("SUS-25-0455 Male").toList)).headD defaultTournament)
    ((parseTournamentsProgrammatically (("xx SUS-25-0455 Male yy").toList)).headD
      defaultTournament)
    (by decide) (by decide) (by decide) (by decide) (by decide) (by decide)

/-- C4: the output records appear in ascending anchor-position order and
no sorting is applied: the offset-annotated loop projects, position by
position, to the parser's output on its record side and to the retained
anchors' source offsets on its offset side, and those offsets — hence the
anchor offsets of consecutive output records — are strictly increasing. -/
theorem C4_output_order : ∀ text,
    (annotatedParse text).map Prod.snd = parseTournamentsProgrammatically text ∧
    (annotatedParse text).map Prod.fst = (retainedMatches text).map Prod.fst ∧
    List.Chain' (fun a b => a < b) ((annotatedParse text).map Prod.fst) := by
  intro text
  refine ⟨?_, ?_, ?_⟩
  · rw [annotatedParse_eq, parse_eq]
    exact parseLoopAnn_snd _ _ _
  · rw [annotatedParse_eq]
    exact parseLoopAnn_fst _ _ _
  · rw [annotatedParse_eq, parseLoopAnn_fst]
    apply List.Pairwise.chain'
    apply (List.pairwise_map).mpr
    exact List.Pairwise.sublist (List.filter_sublist _)
      (findAll_pairwise entryStartPat (normalizeDashes text) 0)

/-- C5 counterexample: a chunk containing `"male"` yields the gender
`"male"` verbatim, which is not one of the three canonical strings, so
the gender field is not always exactly `Mixed`, `Male` or `Female`. -/
theorem C5_counterexample :
    (parseTournamentsProgrammatically (("SUS-25-0455 male").toList)).map (fun r => r.gender) =
      [("male").toList] ∧
    (("male").toList) ∉ [("Mixed").toList, ("Male").toList, ("Female").toList] := by
  constructor
  · decide
  · decide

/-- C5 (amended): the gender field is the first case-insensitive
whole-word match of Mixed/Male/Female as written in the chunk (original
casing preserved), defaulting to `"Mixed"`; so its upper-casing is always
one of `MIXED`, `MALE`, `FEMALE`. -/
theorem C5_gender_amended : ∀ text r, r ∈ parseTournamentsProgrammatically text →
    jsToUpperL r.gender ∈ [("MIXED").toList, ("MALE").toList, ("FEMALE").toList] := by
  intro text r hr
  rw [parse_eq] at hr
  obtain ⟨chunk, raw, c, hf, rfl⟩ := parseLoop_shape _ _ _ r hr
  rw [mkRecord_gender]
  exact genderOf_upper chunk

/-- C5 witness: the lowercase-gender record's gender upper-cases to MALE. -/
theorem C5_witness :
    jsToUpperL ((parseTournamentsProgrammatically (("SUS-25-0455 male").toList)).headD
      defaultTournament).gender ∈
      [("MIXED").toList, ("MALE").toList, ("FEMALE").toList] :=
  C5_gender_amended (("SUS-25-0455 male").toList)
    ((parseTournamentsProgrammatically (("SUS-25-0455 male").toList)).headD defaultTournament)
    (by decide)

/-- C6 counterexample: a lowercase code is not recognized as an anchor
(the anchor regex has no `i` flag), although its uppercase form is, so
anchor recognition is not case-insensitive. -/
theorem C6_counterexample :
    parseTournamentsProgrammatically (("sus-25-0455").toList) = [] ∧
    (parseTournamentsProgrammatically (("SUS-25-0455").toList)).length = 1 := by
  constructor
  · decide
  · decide

/-- C6 (amended): anchor recognition tolerates stray whitespace between
the code's characters (the record stores the code whitespace-stripped),
but requires uppercase letters; stored codes contain no whitespace. -/
theorem C6_whitespace_amended :
    ((parseTournamentsProgrammatically (("S U S - 2 5 - 0 4 5 5").toList)).map
        (fun r => r.ltaCode) = [("SUS-25-0455").toList]) ∧
    (parseTournamentsProgrammatically (("sus-25-0455").toList)).length = 0 ∧
    (∀ text r, r ∈ parseTournamentsProgrammatically text → stripWs r.ltaCode = r.ltaCode) := by
  refine ⟨by decide, by decide, ?_⟩
  intro text r hr
  rw [parse_eq] at hr
  obtain ⟨chunk, raw, c, hf, rfl⟩ := parseLoop_shape _ _ _ r hr
  rw [mkRecord_ltaCode]
  simp [stripWs, List.filter_filter]

/-- C6 witness: the spaced-code record's stored code is whitespace-free. -/
theorem C6_witness :
    stripWs ((parseTournamentsProgrammatically (("S U S - 2 5 - 0 4 5 5").toList)).headD
      defaultTournament).ltaCode =
    ((parseTournamentsProgrammatically (("S U S - 2 5 - 0 4 5 5").toList)).headD
      defaultTournament).ltaCode :=
  C6_whitespace_amended.2.2 (("S U S - 2 5 - 0 4 5 5").toList)
    ((parseTournamentsProgrammatically (("S U S - 2 5 - 0 4 5 5").toList)).headD
      defaultTournament)
    (by decide)

/-- C7: for every entry chunk, the venue is the chunk text strictly
between the end of the date match and the `CD:` label when the date
matched and `CD:` occurs strictly after it — trimmed, whitespace-collapsed
and truncated to 80 characters — and the placeholder club name in every
other case. -/
theorem C7_venue : ∀ chunk raw cat, (mkRecord chunk raw cat).venue = specVenueOf chunk := by
  have hplaceholder : (collapseWsWith ' ' (("Sussex Club").toList)).take 80
      = ("Sussex Club").toList := by decide
  intro chunk raw cat
  show venueOf chunk = specVenueOf chunk
  cases hd : dateFindOpt chunk with
  | none => simp only [venueOf, specVenueOf, hd, hplaceholder]
  | some im =>
    obtain ⟨i, m⟩ := im
    have hidx : idxOf m chunk = some i := dateFind_idxOf chunk i m hd
    cases hcd : idxOf (("CD:").toList) chunk with
    | none => simp only [venueOf, specVenueOf, hd, hcd, hplaceholder]
    | some k =>
      simp only [venueOf, specVenueOf, hd, hcd, hidx, Option.getD_some]
      by_cases hlt : i + m.length < k
      · rw [if_pos hlt, if_pos hlt]
      · rw [if_neg hlt, if_neg hlt]
        exact hplaceholder

/-- C8: every record's month field is the full month name looked up from
the upper-cased last space-delimited token of its date (`"Upcoming"` when
the token is not in the table, including for the `"TBD"` sentinel),
followed by the year: 2025 exactly when the code contains `-25-`, else
2026. -/
theorem C8_month : ∀ text r, r ∈ parseTournamentsProgrammatically text →
    r.month = specMonthOf r.date r.ltaCode := by
  intro text r hr
  rw [parse_eq] at hr
  obtain ⟨chunk, raw, c, hf, rfl⟩ := parseLoop_shape _ _ _ r hr
  rw [mkRecord_month, mkRecord_date, mkRecord_ltaCode]
  exact monthLabel_eq_specMonthOf _ _

/-- C8 witness: the dateless record gets `"Upcoming 2025"`. -/
theorem C8_witness :
    ((parseTournamentsProgrammatically (("SUS-25-0455").toList)).headD
      defaultTournament).month =
    specMonthOf
      ((parseTournamentsProgrammatically (("SUS-25-0455").toList)).headD
        defaultTournament).date
      ((parseTournamentsProgrammatically (("SUS-25-0455").toList)).headD
        defaultTournament).ltaCode :=
  C8_month (("SUS-25-0455").toList)
    ((parseTournamentsProgrammatically (("SUS-25-0455").toList)).headD defaultTournament)
    (by decide)

/-- C9: the parser is a total function with explicit defaults: zero
anchors yield the empty output (not an error), and an entry chunk with no
recognizable date substring yields the `"TBD"` sentinel date. -/
theorem C9_no_errors :
    (∀ text, findAll entryStartPat (normalizeDashes text) 0 = [] →
      parseTournamentsProgrammatically text = []) ∧
    (∀ chunk raw cat, dateFindOpt chunk = none →
      (mkRecord chunk raw cat).date = ("TBD").toList) := by
  constructor
  · intro text h
    rw [parse_eq, h]
    rfl
  · intro chunk raw cat h
    rw [mkRecord_date]
    simp only [dateStrOf, h]

/-- C9 witness: an anchor-free input parses to `[]`, and a dateless chunk
gives date `"TBD"`. -/
theorem C9_witness :
    parseTournamentsProgrammatically (("hello world").toList) = [] ∧
    (mkRecord (("SUS-25-0455").toList) (("SUS-25-0455").toList) (("Junior").toList)).date =
      ("TBD").toList :=
  ⟨C9_no_errors.1 (("hello world").toList) (by decide),
   C9_no_errors.2 (("SUS-25-0455").toList) (("SUS-25-0455").toList) (("Junior").toList)
     (by decide)⟩

/-- C10: every record's grade is the string `"Grade "` followed by one
digit character — the captured digit is only the first digit after
Singles/Doubles/Grade, so `"Grade 12"` in the text yields `"Grade 1"`,
and the default digit is `'4'`. -/
theorem C10_grade :
    (∀ text r, r ∈ parseTournamentsProgrammatically text →
      ∃ d, isDigitC d = true ∧ r.grade = ("Grade ").toList ++ [d]) ∧
    ((parseTournamentsProgrammatically (("SUS-25-0455 Grade 12").toList)).map
      (fun r => r.grade) = [("Grade 1").toList]) := by
  constructor
  · intro text r hr
    rw [parse_eq] at hr
    obtain ⟨chunk, raw, c, hf, rfl⟩ := parseLoop_shape _ _ _ r hr
    refine ⟨(gradeFind chunk).getD '4', ?_, mkRecord_grade chunk raw c⟩
    cases hg : gradeFind chunk with
    | none => decide
    | some d => simpa using gradeFind_digit chunk d hg
  · decide

/-- C10 witness: the `"Grade 12"` record's grade is `"Grade "` plus one
digit. -/
theorem C10_witness : ∃ d, isDigitC d = true ∧
    ((parseTournamentsProgrammatically (("SUS-25-0455 Grade 12").toList)).headD
      defaultTournament).grade = ("Grade ").toList ++ [d] :=
  C10_grade.1 (("SUS-25-0455 Grade 12").toList)
    ((parseTournamentsProgrammatically (("SUS-25-0455 Grade 12").toList)).headD
      defaultTournament)
    (by decide)

end LTA
